import Mathlib

/-!
Verification of the resumable-upload coordinator of the temporary-storage-page
repository. The repository contains two parallel implementations of the same
HTTP surface: `src/server.js` (Express + MinIO client) and `src/main.go`
(Fiber + minio-go). The shallow embedding below translates the handlers into
pure functions over an explicit system state (the in-memory session registry
`multipartUploads` plus the MinIO bucket modelled as a key-addressed blob
store). Where the two implementations differ observably (the file-listing
handler), both variants are embedded under distinct names.

Modelling conventions:
- object bytes are `List Nat`;
- the blob store is a total function from keys to `Option` bytes, `none`
  meaning the key is absent (a `getObject`/`GetObject` on an absent key is
  the storage failure surfaced as HTTP 500);
- the registry is a total function from uploadId to `Option UploadSession`;
- nondeterministic inputs of the handlers (the uuid, the naming timestamp,
  and whether a blob-store write succeeds) are passed as explicit parameters.
-/

/-- Object contents: a sequence of byte values. -/
abbrev Bytes := List Nat

/-- One entry of the `multipartUploads` map: `MultipartUploadInfo` in
`src/main.go` lines 25-34, and the object literal stored by the init handler
in `src/server.js` lines 79-87. `uploadedChunks` is the set of recorded chunk
indices (`map[int]bool` in Go, `Set` in JS), kept as a duplicate-free list. -/
structure UploadSession where
  fileName : String
  objectName : String
  fileSize : Int
  chunkSize : Int
  totalChunks : Int
  uploadedChunks : List Int
deriving Repr, DecidableEq

/-- The blob store (MinIO bucket): key-addressed object storage. -/
abbrev Store := String → Option Bytes

/-- The session registry: the `multipartUploads` map. -/
abbrev Registry := String → Option UploadSession

/-- The mutable state shared by all handlers: the in-memory registry and the
blob-store bucket. -/
structure SysState where
  registry : Registry
  store : Store

/-- The error taxonomy of the HTTP boundary: 400 validation, 404 unknown id,
400 incomplete-upload conflict (carrying the current and total counts, as the
JSON payload of `src/server.js` lines 158-162 does), 500 storage failure. -/
inductive ApiError where
  | validation
  | notFound
  | conflict (uploaded total : Int)
  | storage
deriving Repr, DecidableEq

/-- Write an object: `putObject` / `PutObject` (overwrites any prior value). -/
def putB (σ : Store) (k : String) (v : Bytes) : Store :=
  fun x => if x = k then some v else σ x

/-- Delete an object: `removeObject` / `RemoveObject`. Deleting an absent key
leaves the store unchanged (the handlers ignore such errors). -/
def delB (σ : Store) (k : String) : Store :=
  fun x => if x = k then none else σ x

/-- Insert a session into the registry (`multipartUploads.set` /
`multipartUploads[uploadID] = ...`). -/
def setReg (ρ : Registry) (u : String) (s : UploadSession) : Registry :=
  fun x => if x = u then some s else ρ x

/-- Remove a session from the registry (`multipartUploads.delete` /
`delete(multipartUploads, ...)`). -/
def delReg (ρ : Registry) (u : String) : Registry :=
  fun x => if x = u then none else ρ x

/-- Set-insert into the recorded chunk indices: `uploadedChunks.add` in
`src/server.js` line 126, `UploadedChunks[chunkIndex] = true` in
`src/main.go` line 270. Idempotent. -/
def setAdd (s : List Int) (i : Int) : List Int :=
  if i ∈ s then s else i :: s

/-- The part key of a chunk: `` `${objectName}.part${chunkIndexNum}` `` in
`src/server.js` line 120, `fmt.Sprintf("%s.part%d", ...)` in `src/main.go`
line 256. -/
def partKey (objectName : String) (i : Int) : String :=
  objectName ++ ".part" ++ toString i

/-- The finished-file name assigned at init: `` `${Date.now()}_${fileName}` ``
in `src/server.js` line 76, `fmt.Sprintf("%d_%s", time.Now().Unix(), ...)` in
`src/main.go` line 189. The timestamp is a parameter. -/
def mkObjectName (ts : Int) (fileName : String) : String :=
  toString ts ++ "_" ++ fileName

/-- POST /api/upload/init: `src/server.js` lines 65-98, `src/main.go` lines
169-211. The only validation is the emptiness/zero check (`!fileName ||
!fileSize || !chunkSize` in JS, `== "" || == 0 || == 0` in Go). `totalChunks`
is the ceiling `(fileSize + chunkSize - 1) / chunkSize` with Go's truncated
integer division (`Math.ceil(fileSize / chunkSize)` in JS agrees on all
positive inputs). The fresh uuid and the naming timestamp are parameters. -/
def initUpload (st : SysState) (uploadId : String) (ts : Int)
    (fileName : String) (fileSize chunkSize : Int) :
    Except ApiError (String × String × Int) × SysState :=
  if fileName = "" ∨ fileSize = 0 ∨ chunkSize = 0 then
    (.error .validation, st)
  else
    let objectName := mkObjectName ts fileName
    let totalChunks := Int.tdiv (fileSize + chunkSize - 1) chunkSize
    let info : UploadSession :=
      ⟨fileName, objectName, fileSize, chunkSize, totalChunks, []⟩
    (.ok (uploadId, objectName, totalChunks),
     ⟨setReg st.registry uploadId info, st.store⟩)

/-- POST /api/upload/chunk: `src/server.js` lines 101-140, `src/main.go`
lines 214-282. Looks the session up (404 when absent), writes the part under
`partKey`, records the index. There is no bounds check on `chunkIndex`. The
success payload carries the chunk index, the recorded-index count and
`totalChunks`. -/
def uploadChunk (st : SysState) (uploadId : String) (chunkIndex : Int)
    (data : Bytes) : Except ApiError (Int × Int × Int) × SysState :=
  match st.registry uploadId with
  | none => (.error .notFound, st)
  | some info =>
      let chunkObjectName := partKey info.objectName chunkIndex
      let σ1 := putB st.store chunkObjectName data
      let info1 := { info with
        uploadedChunks := setAdd info.uploadedChunks chunkIndex }
      (.ok (chunkIndex, (info1.uploadedChunks.length : Int), info.totalChunks),
       ⟨setReg st.registry uploadId info1, σ1⟩)

/-- The ascending-index read loop of the completion merger: reads the parts
for indices `0 .. n-1` in order (`src/server.js` lines 180-194, `src/main.go`
lines 331-350), failing as a whole if any single read fails. -/
def readParts (σ : Store) (objectName : String) : Nat → Option (List Bytes)
  | 0 => some []
  | n + 1 =>
      match readParts σ objectName n with
      | none => none
      | some acc =>
          match σ (partKey objectName (n : Int)) with
          | none => none
          | some d => some (acc ++ [d])

/-- The part-deletion loop over indices `0 .. n-1` (`src/server.js` lines
203-209 and 250-258, `src/main.go` lines 366-372 and 434-440). Individual
delete failures are ignored, so the loop always yields a store. -/
def deleteParts (σ : Store) (objectName : String) : Nat → Store
  | 0 => σ
  | n + 1 => delB (deleteParts σ objectName n) (partKey objectName (n : Int))

/-- POST /api/upload/complete: `src/server.js` lines 143-237, `src/main.go`
lines 285-415. After the 404 check and the completeness check
(`uploadedChunks.size !== totalChunks` conflict), the multi-part branch reads
every part in ascending index order, concatenates, writes the final object,
then best-effort-deletes the parts and retires the session; the one-part
branch store-side-copies part 0 to the final name and deletes it. `putOk`
models whether the final blob-store write (put or copy) succeeds; when it
fails, or when any part read fails, the handler returns 500 before any write
or deletion has happened. -/
def complete (st : SysState) (uploadId : String) (putOk : Bool) :
    Except ApiError (String × String) × SysState :=
  match st.registry uploadId with
  | none => (.error .notFound, st)
  | some info =>
      if (info.uploadedChunks.length : Int) ≠ info.totalChunks then
        (.error (.conflict (info.uploadedChunks.length : Int) info.totalChunks),
         st)
      else
        let finalObject := info.objectName
        if 1 < info.totalChunks then
          match readParts st.store info.objectName info.totalChunks.toNat with
          | none => (.error .storage, st)
          | some chunks =>
              if putOk then
                let merged := chunks.flatten
                let σ1 := putB st.store finalObject merged
                let σ2 := deleteParts σ1 info.objectName info.totalChunks.toNat
                (.ok (finalObject, info.fileName),
                 ⟨delReg st.registry uploadId, σ2⟩)
              else (.error .storage, st)
        else
          match st.store (partKey info.objectName 0) with
          | none => (.error .storage, st)
          | some d =>
              if putOk then
                let σ1 := putB st.store finalObject d
                let σ2 := delB σ1 (partKey info.objectName 0)
                (.ok (finalObject, info.fileName),
                 ⟨delReg st.registry uploadId, σ2⟩)
              else (.error .storage, st)

/-- DELETE /api/upload/:uploadId: `src/server.js` lines 240-268, `src/main.go`
lines 418-451. Attempts to delete the part key of every index in
`[0, totalChunks)` (absence ignored), then removes the session. -/
def cancel (st : SysState) (uploadId : String) :
    Except ApiError Unit × SysState :=
  match st.registry uploadId with
  | none => (.error .notFound, st)
  | some info =>
      let σ1 := deleteParts st.store info.objectName info.totalChunks.toNat
      (.ok (), ⟨delReg st.registry uploadId, σ1⟩)

/-- GET /api/upload/:uploadId/status: `src/server.js` lines 271-291,
`src/main.go` lines 454-481. Read-only; reports the recorded count and the
total. -/
def getUploadStatus (st : SysState) (uploadId : String) :
    Except ApiError (Int × Int) :=
  match st.registry uploadId with
  | none => .error .notFound
  | some info => .ok ((info.uploadedChunks.length : Int), info.totalChunks)

/-- Does `pat` occur at the head of the character list? Helper for Go's
`strings.Contains`. -/
def charsStartWith : List Char → List Char → Bool
  | [], _ => true
  | _ :: _, [] => false
  | p :: ps, c :: cs => p = c && charsStartWith ps cs

/-- Does `pat` occur anywhere in the character list? Helper for Go's
`strings.Contains`. -/
def charsContain (pat : List Char) : List Char → Bool
  | [] => charsStartWith pat []
  | c :: cs => charsStartWith pat (c :: cs) || charsContain pat cs

/-- Substring containment, as Go's `strings.Contains s pat`. -/
def strContains (s pat : String) : Bool :=
  charsContain pat.data s.data

/-- GET /api/files, Go variant: `src/main.go` lines 525-560. Enumerates the
bucket keys and skips every key containing `".part"`
(`strings.Contains(object.Key, ".part")`, line 543). The enumeration order is
whatever the store yields, passed here as the key list. -/
def listFilesGo (keys : List String) : List String :=
  keys.filter (fun k => !(strContains k ".part"))

/-- GET /api/files, JS variant: `src/server.js` lines 322-341. Pushes every
enumerated key into the response; there is no filtering of part keys. -/
def listFilesJs (keys : List String) : List String :=
  keys

/-- A chunk-upload history: the (index, data) pairs of a sequence of
successful POST /api/upload/chunk requests, applied in order. -/
def applyHistory (st : SysState) (uploadId : String) :
    List (Int × Bytes) → SysState
  | [] => st
  | e :: t => applyHistory (uploadChunk st uploadId e.1 e.2).2 uploadId t

/-- The bytes most recently uploaded for a given index in a history, if any.
Because each part write overwrites the same key, this is what the part key
holds after the history. -/
def lastUpload : List (Int × Bytes) → Int → Option Bytes
  | [], _ => none
  | e :: t, i =>
      match lastUpload t i with
      | some d => some d
      | none => if e.1 = i then some e.2 else none

/-- The recorded-index list produced by folding a history's set-inserts. -/
def foldIndices (s : List Int) (h : List (Int × Bytes)) : List Int :=
  h.foldl (fun acc e => setAdd acc e.1) s

/-- The ascending-index concatenation of the bytes each part key holds after
a history: the reference value for the final object. -/
def mergedBytes (h : List (Int × Bytes)) (n : Nat) : Bytes :=
  ((List.range n).map (fun (m : Nat) => (lastUpload h (m : Int)).getD [])).flatten

/-- The digit rendering of a natural number, structurally recursive; proven
below to agree with core's fuel-based `Nat.toDigits 10`. -/
def natDigits (n : Nat) : List Char :=
  if n < 10 then [Nat.digitChar n]
  else natDigits (n / 10) ++ [Nat.digitChar (n % 10)]
decreasing_by exact Nat.div_lt_self (by omega) (by omega)

/-! ### Concrete states

Small closed states used to instantiate the theorems below on explicit
inputs. -/

/-- An empty registry over an empty bucket. -/
def stEmpty : SysState := ⟨fun _ => none, fun _ => none⟩

/-- A 3-chunk session `"u1"` (file `a.bin`, 10 bytes in chunks of 4) with
chunks 0 and 2 recorded and their parts stored. -/
def stPartial : SysState :=
  ⟨fun u => if u = "u1" then some ⟨"a.bin", "1_a.bin", 10, 4, 3, [0, 2]⟩
            else none,
   fun k => if k = "1_a.bin.part0" then some [65, 66]
            else if k = "1_a.bin.part2" then some [73, 74] else none⟩

/-- A fresh 3-chunk session `"u1"` with nothing uploaded yet. -/
def stFresh : SysState :=
  ⟨fun u => if u = "u1" then some ⟨"a.bin", "1_a.bin", 10, 4, 3, []⟩
            else none,
   fun _ => none⟩

/-- A fully-uploaded, not-yet-completed 2-chunk session `"u1"`, a second
session `"u2"`, and a stray part stored under the out-of-range index 5. -/
def stTwo : SysState :=
  ⟨fun u => if u = "u1" then some ⟨"a.bin", "1_a.bin", 8, 4, 2, [0, 1]⟩
            else if u = "u2" then some ⟨"b.txt", "2_b.txt", 4, 4, 1, []⟩
            else none,
   fun k => if k = "1_a.bin.part0" then some [1]
            else if k = "1_a.bin.part1" then some [2]
            else if k = "1_a.bin.part5" then some [9] else none⟩

/-- A 2-chunk session whose bookkeeping records both chunks while the part
for index 1 is missing from the bucket. -/
def stMissing : SysState :=
  ⟨fun u => if u = "u1" then some ⟨"a.bin", "1_a.bin", 8, 4, 2, [0, 1]⟩
            else none,
   fun k => if k = "1_a.bin.part0" then some [1] else none⟩

/-- An example upload history for the fresh 3-chunk session: chunk 2 first,
then chunk 0 twice (a retry), then chunk 1. -/
def histEx : List (Int × Bytes) :=
  [(2, [69, 70, 71, 72]), (0, [65, 66]), (0, [65, 66]), (1, [67, 68])]

/-! ### Digit-rendering facts

The part keys embed the chunk index through `toString`. The lemmas below
recover `toString` injectivity on nonnegative integers from core's fuel-based
`Nat.toDigitsCore`, so that distinct chunk indices provably name distinct
part keys. -/

theorem natDigits_lt {n : Nat} (h : n < 10) :
    natDigits n = [Nat.digitChar n] := by
  rw [natDigits, if_pos h]

theorem natDigits_ge {n : Nat} (h : 10 ≤ n) :
    natDigits n = natDigits (n / 10) ++ [Nat.digitChar (n % 10)] := by
  conv_lhs => rw [natDigits]
  rw [if_neg (by omega)]

theorem natDigits_ne_nil (n : Nat) : natDigits n ≠ [] := by
  by_cases h : n < 10
  · rw [natDigits_lt h]; simp
  · rw [natDigits_ge (by omega)]; simp

theorem digitChar_fin_inj : ∀ a b : Fin 10,
    Nat.digitChar a.val = Nat.digitChar b.val → a = b := by decide

theorem digitChar_inj_of_lt {a b : Nat} (ha : a < 10) (hb : b < 10)
    (h : Nat.digitChar a = Nat.digitChar b) : a = b :=
  congrArg Fin.val (digitChar_fin_inj ⟨a, ha⟩ ⟨b, hb⟩ h)

theorem toDigitsCore_eq_natDigits :
    ∀ (fuel n : Nat) (ds : List Char), n < fuel →
      Nat.toDigitsCore 10 fuel n ds = natDigits n ++ ds := by
  intro fuel
  induction fuel with
  | zero => intro n ds h; omega
  | succ f ih =>
      intro n ds h
      rw [show Nat.toDigitsCore 10 (f + 1) n ds =
            if n / 10 = 0 then Nat.digitChar (n % 10) :: ds
            else Nat.toDigitsCore 10 f (n / 10) (Nat.digitChar (n % 10) :: ds)
          from rfl]
      by_cases h10 : n / 10 = 0
      · have hn : n < 10 := by omega
        rw [if_pos h10, natDigits_lt hn, Nat.mod_eq_of_lt hn]
        rfl
      · have hn : 10 ≤ n := by omega
        rw [if_neg h10, ih (n / 10) _ (by omega), natDigits_ge hn,
          List.append_assoc]
        rfl

theorem natDigits_inj (a : Nat) : ∀ b : Nat, natDigits a = natDigits b → a = b := by
  induction a using Nat.strong_induction_on with
  | _ a ih =>
    intro b h
    by_cases ha : a < 10 <;> by_cases hb : b < 10
    · rw [natDigits_lt ha, natDigits_lt hb] at h
      exact digitChar_inj_of_lt ha hb (by simpa using h)
    · rw [natDigits_lt ha, natDigits_ge (by omega)] at h
      have hlen := congrArg List.length h
      simp only [List.length_cons, List.length_append, List.length_nil] at hlen
      have hz : (natDigits (b / 10)).length = 0 := by omega
      exact absurd (List.length_eq_zero.mp hz) (natDigits_ne_nil _)
    · rw [natDigits_ge (by omega), natDigits_lt hb] at h
      have hlen := congrArg List.length h
      simp only [List.length_cons, List.length_append, List.length_nil] at hlen
      have hz : (natDigits (a / 10)).length = 0 := by omega
      exact absurd (List.length_eq_zero.mp hz) (natDigits_ne_nil _)
    · rw [natDigits_ge (show 10 ≤ a by omega),
        natDigits_ge (show 10 ≤ b by omega)] at h
      obtain ⟨h1, h2⟩ := List.append_inj' h (by simp)
      have hdiv : a / 10 = b / 10 :=
        ih (a / 10) (Nat.div_lt_self (by omega) (by omega)) _ h1
      have hmod : a % 10 = b % 10 :=
        digitChar_inj_of_lt (Nat.mod_lt _ (by omega)) (Nat.mod_lt _ (by omega))
          (by simpa using h2)
      omega

theorem natRepr_eq (n : Nat) : Nat.repr n = (natDigits n).asString := by
  show (Nat.toDigits 10 n).asString = _
  rw [Nat.toDigits, toDigitsCore_eq_natDigits (n + 1) n [] (by omega),
    List.append_nil]

theorem natRepr_inj {a b : Nat} (h : Nat.repr a = Nat.repr b) : a = b := by
  rw [natRepr_eq, natRepr_eq] at h
  exact natDigits_inj a b (congrArg String.data h)

theorem toString_int_nonneg_inj {i j : Int} (hi : 0 ≤ i) (hj : 0 ≤ j)
    (h : toString i = toString j) : i = j := by
  obtain ⟨a, rfl⟩ := Int.eq_ofNat_of_zero_le hi
  obtain ⟨b, rfl⟩ := Int.eq_ofNat_of_zero_le hj
  have hr : Nat.repr a = Nat.repr b := h
  exact congrArg Int.ofNat (natRepr_inj hr)

/-! ### Part-key facts -/

theorem partKey_inj_nonneg {o : String} {i j : Int} (hi : 0 ≤ i) (hj : 0 ≤ j)
    (h : partKey o i = partKey o j) : i = j := by
  apply toString_int_nonneg_inj hi hj
  apply String.ext
  have hd := congrArg String.data h
  simp only [partKey, String.data_append, List.append_assoc] at hd
  exact List.append_cancel_left (List.append_cancel_left hd)

theorem partKey_ne_objectName (o : String) (i : Int) : partKey o i ≠ o := by
  intro h
  have hd := congrArg (fun s => s.data.length) h
  simp only [partKey, String.data_append, List.length_append,
    List.length_cons, List.length_nil] at hd
  omega

theorem charsStartWith_append_self (pat t : List Char) :
    charsStartWith pat (pat ++ t) = true := by
  induction pat with
  | nil => rfl
  | cons p ps ih => simp [charsStartWith, ih]

theorem charsContain_of_startWith {pat l : List Char}
    (h : charsStartWith pat l = true) : charsContain pat l = true := by
  cases l with
  | nil => simpa [charsContain] using h
  | cons c cs => simp [charsContain, h]

theorem charsContain_append_left (pat pre l : List Char)
    (h : charsContain pat l = true) : charsContain pat (pre ++ l) = true := by
  induction pre with
  | nil => simpa using h
  | cons c cs ih => simp [charsContain, ih]

theorem partKey_contains_marker (o : String) (i : Int) :
    strContains (partKey o i) ".part" = true := by
  show charsContain ".part".data (partKey o i).data = true
  have hd : (partKey o i).data =
      o.data ++ (".part".data ++ (toString i).data) := by
    simp [partKey, String.data_append, List.append_assoc]
  rw [hd]
  exact charsContain_append_left _ _ _
    (charsContain_of_startWith (charsStartWith_append_self _ _))

/-! ### Store, registry and set-insert facts -/

theorem putB_same (σ : Store) (k : String) (v : Bytes) :
    putB σ k v k = some v := by simp [putB]

theorem putB_other (σ : Store) (k : String) (v : Bytes) {x : String}
    (h : x ≠ k) : putB σ k v x = σ x := by simp [putB, h]

theorem delB_same (σ : Store) (k : String) : delB σ k k = none := by
  simp [delB]

theorem delB_other (σ : Store) (k : String) {x : String} (h : x ≠ k) :
    delB σ k x = σ x := by simp [delB, h]

theorem setReg_same (ρ : Registry) (u : String) (s : UploadSession) :
    setReg ρ u s u = some s := by simp [setReg]

theorem setReg_other (ρ : Registry) (u : String) (s : UploadSession)
    {x : String} (h : x ≠ u) : setReg ρ u s x = ρ x := by simp [setReg, h]

theorem delReg_same (ρ : Registry) (u : String) : delReg ρ u u = none := by
  simp [delReg]

theorem delReg_other (ρ : Registry) (u : String) {x : String} (h : x ≠ u) :
    delReg ρ u x = ρ x := by simp [delReg, h]

theorem mem_setAdd {s : List Int} {i j : Int} :
    j ∈ setAdd s i ↔ j = i ∨ j ∈ s := by
  by_cases h : i ∈ s
  · rw [setAdd, if_pos h]
    constructor
    · exact Or.inr
    · rintro (rfl | hj)
      · exact h
      · exact hj
  · rw [setAdd, if_neg h]
    exact List.mem_cons

theorem nodup_setAdd {s : List Int} (i : Int) (h : s.Nodup) :
    (setAdd s i).Nodup := by
  by_cases hi : i ∈ s
  · rwa [setAdd, if_pos hi]
  · rw [setAdd, if_neg hi]
    exact List.nodup_cons.mpr ⟨hi, h⟩

theorem setAdd_of_mem {s : List Int} {i : Int} (h : i ∈ s) :
    setAdd s i = s := by rw [setAdd, if_pos h]

/-! ### Read/delete loop facts -/

theorem readParts_eq_of_parts {σ : Store} {obj : String} (f : Nat → Bytes) :
    ∀ k : Nat, (∀ m : Nat, m < k → σ (partKey obj (m : Int)) = some (f m)) →
      readParts σ obj k = some ((List.range k).map f) := by
  intro k
  induction k with
  | zero => intro _; rfl
  | succ n ih =>
      intro h
      rw [readParts, ih (fun m hm => h m (by omega)), h n (by omega)]
      simp [List.range_succ]

theorem readParts_none {σ : Store} {obj : String} :
    ∀ k : Nat, (∃ m : Nat, m < k ∧ σ (partKey obj (m : Int)) = none) →
      readParts σ obj k = none := by
  intro k
  induction k with
  | zero => rintro ⟨m, hm, _⟩; omega
  | succ n ih =>
      rintro ⟨m, hm, hnone⟩
      rw [readParts]
      by_cases hmn : m < n
      · rw [ih ⟨m, hmn, hnone⟩]
      · have hmeq : m = n := by omega
        subst hmeq
        rw [hnone]
        cases readParts σ obj m <;> rfl

theorem deleteParts_frame {σ : Store} {obj k : String} :
    ∀ n : Nat, (∀ m : Nat, m < n → k ≠ partKey obj (m : Int)) →
      deleteParts σ obj n k = σ k := by
  intro n
  induction n with
  | zero => intro _; rfl
  | succ n ih =>
      intro h
      rw [deleteParts]
      show (if k = partKey obj (n : Int) then none
            else deleteParts σ obj n k) = σ k
      rw [if_neg (h n (by omega))]
      exact ih (fun m hm => h m (by omega))

theorem deleteParts_deleted {σ : Store} {obj : String} :
    ∀ n m : Nat, m < n →
      deleteParts σ obj n (partKey obj (m : Int)) = none := by
  intro n
  induction n with
  | zero => intro m hm; omega
  | succ n ih =>
      intro m hm
      rw [deleteParts]
      show (if partKey obj (m : Int) = partKey obj (n : Int) then none
            else deleteParts σ obj n (partKey obj (m : Int))) = none
      by_cases h : partKey obj (m : Int) = partKey obj (n : Int)
      · rw [if_pos h]
      · rw [if_neg h]
        have hmn : m ≠ n := fun e => h (by rw [e])
        exact ih m (by omega)

/-! ### Chunk-upload and history facts -/

theorem uploadChunk_spec {st : SysState} {uid : String} {info : UploadSession}
    (h : st.registry uid = some info) (i : Int) (d : Bytes) :
    uploadChunk st uid i d =
      (.ok (i, ((setAdd info.uploadedChunks i).length : Int), info.totalChunks),
       ⟨setReg st.registry uid
          { info with uploadedChunks := setAdd info.uploadedChunks i },
        putB st.store (partKey info.objectName i) d⟩) := by
  rw [uploadChunk, h]

theorem applyHistory_cons (st : SysState) (uid : String) (e : Int × Bytes)
    (t : List (Int × Bytes)) :
    applyHistory st uid (e :: t) =
      applyHistory (uploadChunk st uid e.1 e.2).2 uid t := rfl

theorem applyHistory_spec {uid : String} :
    ∀ (h : List (Int × Bytes)) (st : SysState) (info : UploadSession),
      st.registry uid = some info →
      (∀ e ∈ h, 0 ≤ e.1) →
      ((applyHistory st uid h).registry uid =
        some { info with uploadedChunks := foldIndices info.uploadedChunks h })
      ∧ (∀ i : Int, 0 ≤ i →
          (applyHistory st uid h).store (partKey info.objectName i) =
            match lastUpload h i with
            | some d => some d
            | none => st.store (partKey info.objectName i)) := by
  intro h
  induction h with
  | nil =>
      intro st info hreg _
      refine ⟨by simpa [applyHistory, foldIndices] using hreg, ?_⟩
      intro i _
      simp [applyHistory, lastUpload]
  | cons e t ih =>
      intro st info hreg hpos
      have he : 0 ≤ e.1 := (hpos e (by simp))
      have hstep : (uploadChunk st uid e.1 e.2).2 =
          ⟨setReg st.registry uid
             { info with uploadedChunks := setAdd info.uploadedChunks e.1 },
           putB st.store (partKey info.objectName e.1) e.2⟩ := by
        rw [uploadChunk_spec hreg]
      have hreg1 : (uploadChunk st uid e.1 e.2).2.registry uid =
          some { info with uploadedChunks := setAdd info.uploadedChunks e.1 } := by
        rw [hstep]
        exact setReg_same _ _ _
      obtain ⟨ihr, ihs⟩ := ih (uploadChunk st uid e.1 e.2).2 _ hreg1
        (fun x hx => hpos x (by simp [hx]))
      constructor
      · rw [applyHistory_cons]
        exact ihr
      · intro i hi
        rw [applyHistory_cons]
        have hmid := ihs i hi
        rw [hmid]
        cases hlt : lastUpload t i with
        | some d => simp [lastUpload, hlt]
        | none =>
            rw [hstep]
            show (putB st.store (partKey info.objectName e.1) e.2)
                  (partKey info.objectName i) =
                (match lastUpload (e :: t) i with
                 | some d => some d
                 | none => st.store (partKey info.objectName i))
            rw [show lastUpload (e :: t) i =
                  if e.1 = i then some e.2 else none by
                rw [lastUpload, hlt]]
            by_cases hei : e.1 = i
            · subst hei
              rw [if_pos rfl, putB_same]
            · have hkey : partKey info.objectName i ≠
                  partKey info.objectName e.1 :=
                fun hk => hei (partKey_inj_nonneg hi he hk).symm
              rw [if_neg hei, putB_other _ _ _ hkey]

theorem mem_foldIndices :
    ∀ (h : List (Int × Bytes)) (s : List Int) (i : Int),
      i ∈ foldIndices s h ↔ i ∈ s ∨ ∃ d, (i, d) ∈ h := by
  intro h
  induction h with
  | nil => intro s i; simp [foldIndices]
  | cons e t ih =>
      intro s i
      have hstep : foldIndices s (e :: t) = foldIndices (setAdd s e.1) t := rfl
      rw [hstep, ih, mem_setAdd]
      constructor
      · rintro ((rfl | hs) | ⟨d, hd⟩)
        · exact Or.inr ⟨e.2, by simp⟩
        · exact Or.inl hs
        · exact Or.inr ⟨d, by simp [hd]⟩
      · rintro (hs | ⟨d, hd⟩)
        · exact Or.inl (Or.inr hs)
        · rcases List.mem_cons.mp hd with heq | ht
          · exact Or.inl (Or.inl (by simpa using congrArg Prod.fst heq))
          · exact Or.inr ⟨d, ht⟩

theorem nodup_foldIndices :
    ∀ (h : List (Int × Bytes)) (s : List Int), s.Nodup →
      (foldIndices s h).Nodup := by
  intro h
  induction h with
  | nil => intro s hs; exact hs
  | cons e t ih =>
      intro s hs
      exact ih (setAdd s e.1) (nodup_setAdd e.1 hs)

theorem lastUpload_some_of_mem {h : List (Int × Bytes)} {i : Int}
    (hm : ∃ d, (i, d) ∈ h) : ∃ d, lastUpload h i = some d := by
  induction h with
  | nil => simp at hm
  | cons e t ih =>
      rw [lastUpload]
      cases hlt : lastUpload t i with
      | some d => exact ⟨d, rfl⟩
      | none =>
          obtain ⟨d, hd⟩ := hm
          rcases List.mem_cons.mp hd with heq | ht
          · have : e.1 = i := by simpa using (congrArg Prod.fst heq).symm
            rw [if_pos this]
            exact ⟨e.2, rfl⟩
          · obtain ⟨d', hd'⟩ := ih ⟨d, ht⟩
            rw [hlt] at hd'
            exact absurd hd' (by simp)

theorem foldIndices_length_of_cover {n : Int} (h : List (Int × Bytes))
    (hn : 1 ≤ n)
    (hrange : ∀ e ∈ h, 0 ≤ e.1 ∧ e.1 < n)
    (hcover : ∀ i : Int, 0 ≤ i → i < n → ∃ d, (i, d) ∈ h) :
    ((foldIndices [] h).length : Int) = n := by
  have hnd : (foldIndices [] h).Nodup := nodup_foldIndices h [] List.nodup_nil
  have hmem : ∀ i : Int, i ∈ foldIndices [] h ↔ (0 ≤ i ∧ i < n) := by
    intro i
    rw [mem_foldIndices]
    simp only [List.not_mem_nil, false_or]
    constructor
    · rintro ⟨d, hd⟩
      exact hrange (i, d) hd
    · rintro ⟨h0, h1⟩
      exact hcover i h0 h1
  have hfin : (foldIndices [] h).toFinset =
      ((List.range n.toNat).map (fun (m : Nat) => (m : Int))).toFinset := by
    ext i
    simp only [List.mem_toFinset, hmem, List.mem_map, List.mem_range]
    constructor
    · rintro ⟨h0, h1⟩
      exact ⟨i.toNat, by omega, by omega⟩
    · rintro ⟨m, hm, rfl⟩
      exact ⟨by omega, by omega⟩
  have hndR : ((List.range n.toNat).map (fun (m : Nat) => (m : Int))).Nodup :=
    (List.nodup_range _).map (fun a b hab => by omega)
  have hcardl := List.toFinset_card_of_nodup hnd
  have hcardR := List.toFinset_card_of_nodup hndR
  have hlenR : ((List.range n.toNat).map (fun (m : Nat) => (m : Int))).length = n.toNat := by
    simp
  have hlen : (foldIndices [] h).length = n.toNat := by
    rw [← hcardl, hfin, hcardR, hlenR]
  omega

/-! ### Claim theorems -/

/-- C2: for every existing session with fewer recorded distinct chunk indices
than `totalChunks`, `complete` returns the conflict error carrying the
current count and `totalChunks`, leaves the whole state (registry entry,
recorded set, parts) unchanged, and the session stays queryable through
`status` with the same counts. -/
theorem complete_incomplete_conflict {st : SysState} {uploadId : String}
    {info : UploadSession} (putOk : Bool)
    (hreg : st.registry uploadId = some info)
    (hlt : (info.uploadedChunks.length : Int) < info.totalChunks) :
    complete st uploadId putOk =
      (.error (.conflict (info.uploadedChunks.length : Int) info.totalChunks),
       st)
    ∧ getUploadStatus st uploadId =
        .ok ((info.uploadedChunks.length : Int), info.totalChunks) := by
  constructor
  · simp only [complete, hreg]
    rw [if_pos (show (info.uploadedChunks.length : Int) ≠ info.totalChunks
      by omega)]
  · rw [getUploadStatus, hreg]

/-- Witness for C2: the partially-uploaded 3-chunk session with 2 recorded
chunks gets a conflict carrying 2 of 3 and remains queryable. -/
theorem complete_incomplete_conflict_witness :
    complete stPartial "u1" true =
      (.error (.conflict
        (((⟨"a.bin", "1_a.bin", 10, 4, 3, [0, 2]⟩ :
            UploadSession).uploadedChunks.length : Int))
        ((⟨"a.bin", "1_a.bin", 10, 4, 3, [0, 2]⟩ :
            UploadSession).totalChunks)),
       stPartial)
    ∧ getUploadStatus stPartial "u1" =
        .ok ((((⟨"a.bin", "1_a.bin", 10, 4, 3, [0, 2]⟩ :
            UploadSession).uploadedChunks.length : Int)),
          ((⟨"a.bin", "1_a.bin", 10, 4, 3, [0, 2]⟩ :
            UploadSession).totalChunks)) :=
  complete_incomplete_conflict true rfl (by decide)

/-- C3 counterexample: with the bucket holding exactly the in-flight part key
of chunk 0 of object `"1_a.bin"`, the JS list handler (`src/server.js` lines
322-341) returns that part key, so the sequence returned by GET /api/files
does contain a key matching the part-key pattern. -/
theorem listFilesJs_includes_part_key_cex :
    partKey "1_a.bin" 0 ∈ listFilesJs ["1_a.bin.part0"] := by decide

/-- C3 amended: the Go list handler (`src/main.go` lines 535-555) never
returns any part key: every key of the form `objectName ++ ".part" ++ index`
is filtered out of the result. -/
theorem listFilesGo_excludes_part_keys (keys : List String) (obj : String)
    (i : Int) :
    (listFilesGo keys).all (fun k => k != partKey obj i) = true := by
  rw [List.all_eq_true]
  intro k hk
  rw [listFilesGo, List.mem_filter] at hk
  have hcon : strContains k ".part" = false := by
    simpa using hk.2
  have hne : k ≠ partKey obj i := by
    intro heq
    rw [heq, partKey_contains_marker] at hcon
    exact Bool.noConfusion hcon
  simpa using hne

/-- C4 counterexample: on the fresh 3-chunk session, uploading the
out-of-range chunk index 5 does not fail with a validation error: it
succeeds, writes the part key for index 5, and records 5 in
`uploadedChunks` (so the claimed bound on members of `uploadedChunks` is
violated). -/
theorem uploadChunk_out_of_range_accepted_cex :
    (uploadChunk stFresh "u1" 5 [7]).1 = .ok (5, 1, 3)
    ∧ (uploadChunk stFresh "u1" 5 [7]).2.store (partKey "1_a.bin" 5) =
        some [7]
    ∧ ((uploadChunk stFresh "u1" 5 [7]).2.registry "u1").map
        UploadSession.uploadedChunks = some [5] := ⟨rfl, rfl, rfl⟩

/-- C4 amended: `uploadChunk` performs no bounds check at all: for every
existing session and every integer `chunkIndex` (negative or at least
`totalChunks` included), the call succeeds, writes the part under
`partKey objectName chunkIndex`, and inserts the index into
`uploadedChunks`. -/
theorem uploadChunk_no_bounds_check {st : SysState} {uploadId : String}
    {info : UploadSession} (hreg : st.registry uploadId = some info)
    (chunkIndex : Int) (data : Bytes) :
    (uploadChunk st uploadId chunkIndex data).1 =
      .ok (chunkIndex,
        ((setAdd info.uploadedChunks chunkIndex).length : Int),
        info.totalChunks)
    ∧ (uploadChunk st uploadId chunkIndex data).2.store
        (partKey info.objectName chunkIndex) = some data
    ∧ ((uploadChunk st uploadId chunkIndex data).2.registry uploadId).map
        UploadSession.uploadedChunks =
      some (setAdd info.uploadedChunks chunkIndex)
    ∧ chunkIndex ∈ setAdd info.uploadedChunks chunkIndex := by
  rw [uploadChunk_spec hreg]
  refine ⟨rfl, putB_same _ _ _, ?_, mem_setAdd.mpr (Or.inl rfl)⟩
  rw [show (⟨setReg st.registry uploadId
      { info with uploadedChunks := setAdd info.uploadedChunks chunkIndex },
      putB st.store (partKey info.objectName chunkIndex) data⟩ :
        SysState).registry uploadId =
      some { info with
        uploadedChunks := setAdd info.uploadedChunks chunkIndex }
    from setReg_same _ _ _]
  rfl

/-- Witness for C4 amended: even the negative index -3 is accepted on the
partially-uploaded session. -/
theorem uploadChunk_no_bounds_check_witness :
    (uploadChunk stPartial "u1" (-3) [9]).1 =
      .ok (-3,
        ((setAdd (⟨"a.bin", "1_a.bin", 10, 4, 3, [0, 2]⟩ :
            UploadSession).uploadedChunks (-3)).length : Int),
        (⟨"a.bin", "1_a.bin", 10, 4, 3, [0, 2]⟩ :
            UploadSession).totalChunks)
    ∧ (uploadChunk stPartial "u1" (-3) [9]).2.store
        (partKey (⟨"a.bin", "1_a.bin", 10, 4, 3, [0, 2]⟩ :
            UploadSession).objectName (-3)) = some [9]
    ∧ ((uploadChunk stPartial "u1" (-3) [9]).2.registry "u1").map
        UploadSession.uploadedChunks =
      some (setAdd (⟨"a.bin", "1_a.bin", 10, 4, 3, [0, 2]⟩ :
            UploadSession).uploadedChunks (-3))
    ∧ (-3 : Int) ∈ setAdd (⟨"a.bin", "1_a.bin", 10, 4, 3, [0, 2]⟩ :
            UploadSession).uploadedChunks (-3) :=
  uploadChunk_no_bounds_check rfl (-3) [9]

/-- C5 counterexample: init with the negative `fileSize` -5 is accepted by
both implementations (their check only rejects empty/zero): the call
succeeds and a session is created, contradicting the claim that a negative
size is rejected with a validation error and no session. -/
theorem initUpload_negative_size_accepted_cex :
    (initUpload stEmpty "u1" 1 "a.bin" (-5) 4).1 = .ok ("u1", "1_a.bin", 0)
    ∧ ((initUpload stEmpty "u1" 1 "a.bin" (-5) 4).2.registry "u1").isSome =
        true := ⟨rfl, rfl⟩

/-- C5 amended: init fails with a validation error exactly when `fileName`
is empty or `fileSize` is zero or `chunkSize` is zero (negative sizes are
accepted); on failure the state is unchanged, and on success the session is
registered with the computed name and chunk count. -/
theorem initUpload_validation_iff (st : SysState) (uploadId : String)
    (ts : Int) (fileName : String) (fileSize chunkSize : Int) :
    ((initUpload st uploadId ts fileName fileSize chunkSize).1 =
        .error .validation ↔
      (fileName = "" ∨ fileSize = 0 ∨ chunkSize = 0))
    ∧ ((fileName = "" ∨ fileSize = 0 ∨ chunkSize = 0) →
        (initUpload st uploadId ts fileName fileSize chunkSize).2 = st)
    ∧ (¬(fileName = "" ∨ fileSize = 0 ∨ chunkSize = 0) →
        (initUpload st uploadId ts fileName fileSize chunkSize).2.registry
            uploadId =
          some ⟨fileName, mkObjectName ts fileName, fileSize, chunkSize,
            Int.tdiv (fileSize + chunkSize - 1) chunkSize, []⟩) := by
  by_cases h : fileName = "" ∨ fileSize = 0 ∨ chunkSize = 0
  · refine ⟨?_, fun _ => ?_, fun hc => absurd h hc⟩
    · rw [initUpload, if_pos h]
      simpa using h
    · rw [initUpload, if_pos h]
  · refine ⟨?_, fun hc => absurd hc h, fun _ => ?_⟩
    · rw [initUpload, if_neg h]
      simpa using h
    · rw [initUpload, if_neg h]
      exact setReg_same _ _ _

/-- Witness for C5 amended, at a concrete valid input. -/
theorem initUpload_validation_iff_witness :
    ((initUpload stEmpty "u" 1 "a" 10 4).1 = .error .validation ↔
      ("a" = "" ∨ (10 : Int) = 0 ∨ (4 : Int) = 0))
    ∧ (("a" = "" ∨ (10 : Int) = 0 ∨ (4 : Int) = 0) →
        (initUpload stEmpty "u" 1 "a" 10 4).2 = stEmpty)
    ∧ (¬("a" = "" ∨ (10 : Int) = 0 ∨ (4 : Int) = 0) →
        (initUpload stEmpty "u" 1 "a" 10 4).2.registry "u" =
          some ⟨"a", mkObjectName 1 "a", 10, 4,
            Int.tdiv (10 + 4 - 1) 4, []⟩) :=
  initUpload_validation_iff stEmpty "u" 1 "a" 10 4

/-- C8 counterexample: a client-chosen `fileName` may itself end in a
part-key marker, in which case the finished-file name equals a possible part
key of another session: at timestamp 1, file `"x.part0"` gets the object
name `"1_x.part0"`, which is exactly the part key of chunk 0 of the object
named for file `"x"` at the same timestamp. -/
theorem objectName_collides_part_key_cex :
    mkObjectName 1 "x.part0" = partKey (mkObjectName 1 "x") 0 := by decide

/-- C8 amended: every part key has the form
`objectName ++ ".part" ++ index` and therefore contains the `".part"`
marker; a finished-file name that does not contain `".part"` never equals
any part key — but a `fileName` containing the marker can produce a
finished name that collides with a part key, so the unqualified claim
fails. -/
theorem partKey_form_and_marker_safety (obj name : String) (i : Int) :
    partKey obj i = obj ++ ".part" ++ toString i
    ∧ strContains (partKey obj i) ".part" = true
    ∧ (strContains name ".part" = false → name ≠ partKey obj i) := by
  refine ⟨rfl, partKey_contains_marker obj i, fun hclean heq => ?_⟩
  rw [heq, partKey_contains_marker] at hclean
  exact Bool.noConfusion hclean

/-- Witness for C8 amended: a typical finished name differs from a concrete
part key. -/
theorem partKey_form_and_marker_safety_witness :
    partKey "1_a.bin" 0 = "1_a.bin" ++ ".part" ++ toString (0 : Int)
    ∧ strContains (partKey "1_a.bin" 0) ".part" = true
    ∧ "2_b.txt" ≠ partKey "1_a.bin" 0 :=
  ⟨(partKey_form_and_marker_safety "1_a.bin" "2_b.txt" 0).1,
   (partKey_form_and_marker_safety "1_a.bin" "2_b.txt" 0).2.1,
   (partKey_form_and_marker_safety "1_a.bin" "2_b.txt" 0).2.2 (by decide)⟩

/-- C7: for every existing session, cancel attempts to delete the part key
of every index in `[0, totalChunks)` (absence of a part is treated as
success: the delete of an absent key is a no-op rather than an error),
removes the session, and returns success; afterwards the uploadId yields
not-found from status, chunk upload and complete. The hypotheses put no
condition on `uploadedChunks` or on the stored parts, so this covers both
zero-uploaded and fully-uploaded-but-uncompleted sessions. -/
theorem cancel_cleans_and_retires {st : SysState} {uploadId : String}
    {info : UploadSession} (hreg : st.registry uploadId = some info) :
    (cancel st uploadId).1 = .ok ()
    ∧ (cancel st uploadId).2.registry uploadId = none
    ∧ (∀ i : Int, 0 ≤ i → i < info.totalChunks →
        (cancel st uploadId).2.store (partKey info.objectName i) = none)
    ∧ getUploadStatus (cancel st uploadId).2 uploadId = .error .notFound
    ∧ (∀ (idx : Int) (d : Bytes),
        uploadChunk (cancel st uploadId).2 uploadId idx d =
          (.error .notFound, (cancel st uploadId).2))
    ∧ (∀ putOk : Bool,
        complete (cancel st uploadId).2 uploadId putOk =
          (.error .notFound, (cancel st uploadId).2)) := by
  have hc : cancel st uploadId =
      (.ok (), ⟨delReg st.registry uploadId,
        deleteParts st.store info.objectName info.totalChunks.toNat⟩) := by
    rw [cancel, hreg]
  have hregnone : (cancel st uploadId).2.registry uploadId = none := by
    rw [hc]
    exact delReg_same _ _
  refine ⟨by rw [hc], hregnone, ?_, ?_, ?_, ?_⟩
  · intro i h0 hn
    rw [hc]
    show deleteParts st.store info.objectName info.totalChunks.toNat
        (partKey info.objectName i) = none
    rw [show partKey info.objectName i =
        partKey info.objectName ((i.toNat : Nat) : Int) by
      congr 1
      omega]
    exact deleteParts_deleted _ _ (by omega)
  · rw [getUploadStatus, hregnone]
  · intro idx d
    rw [uploadChunk, hregnone]
  · intro putOk
    rw [complete, hregnone]

/-- Witness for C7 on the fully-uploaded two-chunk session. -/
theorem cancel_cleans_and_retires_witness :
    (cancel stTwo "u1").1 = .ok ()
    ∧ (cancel stTwo "u1").2.registry "u1" = none
    ∧ (∀ i : Int, 0 ≤ i →
        i < (⟨"a.bin", "1_a.bin", 8, 4, 2, [0, 1]⟩ :
            UploadSession).totalChunks →
        (cancel stTwo "u1").2.store
          (partKey (⟨"a.bin", "1_a.bin", 8, 4, 2, [0, 1]⟩ :
            UploadSession).objectName i) = none)
    ∧ getUploadStatus (cancel stTwo "u1").2 "u1" = .error .notFound
    ∧ (∀ (idx : Int) (d : Bytes),
        uploadChunk (cancel stTwo "u1").2 "u1" idx d =
          (.error .notFound, (cancel stTwo "u1").2))
    ∧ (∀ putOk : Bool,
        complete (cancel stTwo "u1").2 "u1" putOk =
          (.error .notFound, (cancel stTwo "u1").2)) :=
  cancel_cleans_and_retires rfl

/-- C10: cancel touches nothing else: every blob-store key other than the
part keys `objectName ++ ".part" ++ m` for `m` in `[0, totalChunks)` keeps
its value (in particular parts stored under out-of-range indices survive),
and every registry entry other than the cancelled uploadId is unchanged. -/
theorem cancel_frame {st : SysState} {uploadId : String}
    {info : UploadSession} (hreg : st.registry uploadId = some info) :
    (∀ k : String, (∀ m : Nat, m < info.totalChunks.toNat →
        k ≠ partKey info.objectName (m : Int)) →
      (cancel st uploadId).2.store k = st.store k)
    ∧ (∀ u : String, u ≠ uploadId →
        (cancel st uploadId).2.registry u = st.registry u) := by
  have hc : cancel st uploadId =
      (.ok (), ⟨delReg st.registry uploadId,
        deleteParts st.store info.objectName info.totalChunks.toNat⟩) := by
    rw [cancel, hreg]
  constructor
  · intro k hk
    rw [hc]
    exact deleteParts_frame _ hk
  · intro u hu
    rw [hc]
    exact delReg_other _ _ hu

/-- Witness for C10: cancelling `"u1"` leaves the part stored under the
out-of-range index 5 and the other session `"u2"` untouched. -/
theorem cancel_frame_witness :
    (cancel stTwo "u1").2.store "1_a.bin.part5" = stTwo.store "1_a.bin.part5"
    ∧ (cancel stTwo "u1").2.registry "u2" = stTwo.registry "u2" :=
  ⟨(cancel_frame rfl).1 "1_a.bin.part5"
    (by
      intro m hm
      have h2 : m < 2 := hm
      interval_cases m <;> decide),
   (cancel_frame rfl).2 "u2" (by decide)⟩

theorem SysState.ext2 {a b : SysState} (hr : a.registry = b.registry)
    (hs : a.store = b.store) : a = b := by
  cases a
  cases b
  simp_all

theorem setReg_setReg (ρ : Registry) (u : String) (s s' : UploadSession) :
    setReg (setReg ρ u s) u s' = setReg ρ u s' := by
  funext x
  by_cases h : x = u <;> simp [setReg, h]

theorem putB_putB (σ : Store) (k : String) (v v' : Bytes) :
    putB (putB σ k v) k v' = putB σ k v' := by
  funext x
  by_cases h : x = k <;> simp [putB, h]

theorem uploadChunk_again {st : SysState} {uploadId : String}
    {info : UploadSession} (hreg : st.registry uploadId = some info)
    (i : Int) (d : Bytes) :
    (uploadChunk (uploadChunk st uploadId i d).2 uploadId i d).2 =
      (uploadChunk st uploadId i d).2 := by
  have h1 : (uploadChunk st uploadId i d).2 =
      ⟨setReg st.registry uploadId
         { info with uploadedChunks := setAdd info.uploadedChunks i },
       putB st.store (partKey info.objectName i) d⟩ := by
    rw [uploadChunk_spec hreg]
  have hreg1 : (uploadChunk st uploadId i d).2.registry uploadId =
      some { info with uploadedChunks := setAdd info.uploadedChunks i } := by
    rw [h1]
    exact setReg_same _ _ _
  rw [uploadChunk_spec hreg1]
  have hset : setAdd (setAdd info.uploadedChunks i) i =
      setAdd info.uploadedChunks i :=
    setAdd_of_mem (mem_setAdd.mpr (Or.inl rfl))
  apply SysState.ext2
  · show setReg (uploadChunk st uploadId i d).2.registry uploadId
        { info with uploadedChunks := setAdd (setAdd info.uploadedChunks i) i }
      = (uploadChunk st uploadId i d).2.registry
    rw [hset, h1]
    exact setReg_setReg _ _ _ _
  · show putB (uploadChunk st uploadId i d).2.store
        (partKey info.objectName i) d = (uploadChunk st uploadId i d).2.store
    rw [h1]
    exact putB_putB _ _ _ _

theorem uploadRepeat_collapse (uploadId : String) (i : Int) (d : Bytes) :
    ∀ (k : Nat) (st : SysState) (info : UploadSession),
      st.registry uploadId = some info →
      applyHistory st uploadId (List.replicate (k + 1) (i, d)) =
        (uploadChunk st uploadId i d).2 := by
  intro k
  induction k with
  | zero => intro st info hreg; rfl
  | succ k ih =>
      intro st info hreg
      show applyHistory (uploadChunk st uploadId i d).2 uploadId
          (List.replicate (k + 1) (i, d)) = (uploadChunk st uploadId i d).2
      have hreg1 : (uploadChunk st uploadId i d).2.registry uploadId =
          some { info with uploadedChunks := setAdd info.uploadedChunks i } := by
        rw [uploadChunk_spec hreg]
        exact setReg_same _ _ _
      rw [ih (uploadChunk st uploadId i d).2 _ hreg1]
      exact uploadChunk_again hreg i d

/-- C9: re-uploading the same chunk index with the same bytes any positive
number of times yields exactly the same system state (registry and store) as
uploading it once; consequently a later `complete` behaves identically,
producing the same final object. -/
theorem uploadChunk_retry_idempotent {st : SysState} {uploadId : String}
    {info : UploadSession} (hreg : st.registry uploadId = some info)
    (i : Int) (d : Bytes) :
    ∀ k : Nat,
      applyHistory st uploadId (List.replicate (k + 1) (i, d)) =
        (uploadChunk st uploadId i d).2
      ∧ (∀ putOk : Bool,
          complete (applyHistory st uploadId (List.replicate (k + 1) (i, d)))
              uploadId putOk =
            complete ((uploadChunk st uploadId i d).2) uploadId putOk) := by
  intro k
  have hs := uploadRepeat_collapse uploadId i d k st info hreg
  exact ⟨hs, fun putOk => by rw [hs]⟩

/-- Witness for C9: uploading chunk 1 three times equals uploading it
once. -/
theorem uploadChunk_retry_idempotent_witness :
    applyHistory stPartial "u1" (List.replicate (2 + 1) (1, [67, 68])) =
      (uploadChunk stPartial "u1" 1 [67, 68]).2
    ∧ (∀ putOk : Bool,
        complete
            (applyHistory stPartial "u1"
              (List.replicate (2 + 1) (1, [67, 68])))
            "u1" putOk =
          complete ((uploadChunk stPartial "u1" 1 [67, 68]).2) "u1" putOk) :=
  uploadChunk_retry_idempotent rfl 1 [67, 68] 2

/-- C6: if completion fails while reading any part (the part key is absent
from the bucket) or while writing the final object (the put/copy fails), the
whole merge aborts with the storage error and the state is completely
unchanged: no final object is written, no part is deleted, and the session
stays in the registry, so a later retry of complete is possible. -/
theorem complete_failure_aborts {st : SysState} {uploadId : String}
    {info : UploadSession} {putOk : Bool}
    (hreg : st.registry uploadId = some info)
    (hcount : (info.uploadedChunks.length : Int) = info.totalChunks)
    (hn : 1 ≤ info.totalChunks)
    (hfail : (∃ m : Nat, m < info.totalChunks.toNat ∧
        st.store (partKey info.objectName (m : Int)) = none)
      ∨ putOk = false) :
    complete st uploadId putOk = (.error .storage, st) := by
  simp only [complete, hreg]
  rw [if_neg (show ¬((info.uploadedChunks.length : Int) ≠ info.totalChunks)
    from fun hne => hne hcount)]
  by_cases hgt : 1 < info.totalChunks
  · rw [if_pos hgt]
    rcases hfail with ⟨m, hm, hnone⟩ | hput
    · rw [readParts_none _ ⟨m, hm, hnone⟩]
    · subst hput
      cases readParts st.store info.objectName info.totalChunks.toNat <;> rfl
  · rw [if_neg hgt]
    rcases hfail with ⟨m, hm, hnone⟩ | hput
    · have h1 : info.totalChunks = 1 := by omega
      have hm0 : m = 0 := by omega
      subst hm0
      rw [Nat.cast_zero] at hnone
      rw [hnone]
    · subst hput
      cases st.store (partKey info.objectName 0) <;> rfl

/-- Witness for C6: completing the session that records both chunks while
part 1 is missing from the bucket fails with the storage error and leaves
the state untouched. -/
theorem complete_failure_aborts_witness :
    complete stMissing "u1" true = (.error .storage, stMissing) :=
  complete_failure_aborts rfl (by decide) (by decide)
    (Or.inl ⟨1, by decide, by decide⟩)

/-- C1: starting from a fresh session, for every upload history (any order
of chunk indices, any number of retries per index) whose indices lie in
`[0, totalChunks)` and cover every such index, each part key ends up holding
the bytes of the most recent upload of its index, `complete` succeeds, and
the final object's bytes are exactly the concatenation of those per-index
bytes in ascending chunk-index order. -/
theorem complete_concat_of_full_history {st : SysState} {uploadId : String}
    {info : UploadSession} (h : List (Int × Bytes))
    (hreg : st.registry uploadId = some info)
    (hfresh : info.uploadedChunks = [])
    (hn : 1 ≤ info.totalChunks)
    (hrange : ∀ e ∈ h, 0 ≤ e.1 ∧ e.1 < info.totalChunks)
    (hcover : ∀ i : Int, 0 ≤ i → i < info.totalChunks → ∃ d, (i, d) ∈ h) :
    (∀ m : Nat, m < info.totalChunks.toNat →
      (applyHistory st uploadId h).store
          (partKey info.objectName (m : Int)) =
        some ((lastUpload h (m : Int)).getD []))
    ∧ (complete (applyHistory st uploadId h) uploadId true).1 =
        .ok (info.objectName, info.fileName)
    ∧ (complete (applyHistory st uploadId h) uploadId true).2.store
        info.objectName =
      some (mergedBytes h info.totalChunks.toNat) := by
  obtain ⟨hregH, hstoreH⟩ :=
    applyHistory_spec h st info hreg (fun e he => (hrange e he).1)
  rw [hfresh] at hregH
  have hparts : ∀ m : Nat, m < info.totalChunks.toNat →
      (applyHistory st uploadId h).store
          (partKey info.objectName (m : Int)) =
        some ((lastUpload h (m : Int)).getD []) := by
    intro m hm
    have h0 : (0 : Int) ≤ (m : Int) := by omega
    have hlt : (m : Int) < info.totalChunks := by omega
    obtain ⟨d, hd⟩ := lastUpload_some_of_mem (hcover (m : Int) h0 hlt)
    have hs := hstoreH (m : Int) h0
    rw [hd] at hs
    rw [hs, hd]
    rfl
  have hlen : ((foldIndices [] h).length : Int) = info.totalChunks :=
    foldIndices_length_of_cover h hn hrange hcover
  refine ⟨hparts, ?_⟩
  by_cases hgt : 1 < info.totalChunks
  · have hread : readParts (applyHistory st uploadId h).store
        info.objectName info.totalChunks.toNat =
        some ((List.range info.totalChunks.toNat).map
          (fun (m : Nat) => (lastUpload h (m : Int)).getD [])) :=
      readParts_eq_of_parts _ _ hparts
    have hcomp : complete (applyHistory st uploadId h) uploadId true =
        (.ok (info.objectName, info.fileName),
         ⟨delReg (applyHistory st uploadId h).registry uploadId,
          deleteParts
            (putB (applyHistory st uploadId h).store info.objectName
              (mergedBytes h info.totalChunks.toNat))
            info.objectName info.totalChunks.toNat⟩) := by
      simp only [complete, hregH]
      rw [if_neg (fun hne => hne hlen), if_pos hgt, hread]
      rfl
    refine ⟨by rw [hcomp], ?_⟩
    have hst2 : (complete (applyHistory st uploadId h) uploadId true).2.store
        info.objectName =
        deleteParts
          (putB (applyHistory st uploadId h).store info.objectName
            (mergedBytes h info.totalChunks.toNat))
          info.objectName info.totalChunks.toNat info.objectName := by
      rw [hcomp]
    rw [hst2,
      deleteParts_frame _
        (fun m hm => Ne.symm (partKey_ne_objectName info.objectName _)),
      putB_same]
  · have h1 : info.totalChunks = 1 := by omega
    have hp0 := hparts 0 (by omega)
    rw [Nat.cast_zero] at hp0
    have hcomp : complete (applyHistory st uploadId h) uploadId true =
        (.ok (info.objectName, info.fileName),
         ⟨delReg (applyHistory st uploadId h).registry uploadId,
          delB
            (putB (applyHistory st uploadId h).store info.objectName
              ((lastUpload h 0).getD []))
            (partKey info.objectName 0)⟩) := by
      simp only [complete, hregH]
      rw [if_neg (fun hne => hne hlen), if_neg hgt, hp0]
      rfl
    refine ⟨by rw [hcomp], ?_⟩
    have hst2 : (complete (applyHistory st uploadId h) uploadId true).2.store
        info.objectName =
        delB
          (putB (applyHistory st uploadId h).store info.objectName
            ((lastUpload h 0).getD []))
          (partKey info.objectName 0) info.objectName := by
      rw [hcomp]
    rw [hst2, delB_other _ _ (Ne.symm (partKey_ne_objectName _ _)),
      putB_same, h1]
    show some ((lastUpload h 0).getD []) = some (mergedBytes h 1)
    simp [mergedBytes, List.range_succ]

/-- Witness for C1: uploading chunk 2, then chunk 0 twice, then chunk 1 on
the fresh 3-chunk session; completion succeeds and the final object is the
in-order concatenation of the three chunks. -/
theorem complete_concat_of_full_history_witness :
    (∀ m : Nat,
      m < (⟨"a.bin", "1_a.bin", 10, 4, 3, []⟩ :
          UploadSession).totalChunks.toNat →
      (applyHistory stFresh "u1" histEx).store
          (partKey (⟨"a.bin", "1_a.bin", 10, 4, 3, []⟩ :
            UploadSession).objectName (m : Int)) =
        some ((lastUpload histEx (m : Int)).getD []))
    ∧ (complete (applyHistory stFresh "u1" histEx) "u1" true).1 =
        .ok ((⟨"a.bin", "1_a.bin", 10, 4, 3, []⟩ :
            UploadSession).objectName,
          (⟨"a.bin", "1_a.bin", 10, 4, 3, []⟩ : UploadSession).fileName)
    ∧ (complete (applyHistory stFresh "u1" histEx) "u1" true).2.store
        (⟨"a.bin", "1_a.bin", 10, 4, 3, []⟩ : UploadSession).objectName =
      some (mergedBytes histEx
        (⟨"a.bin", "1_a.bin", 10, 4, 3, []⟩ :
          UploadSession).totalChunks.toNat) :=
  complete_concat_of_full_history histEx rfl rfl (by decide) (by decide)
    (by
      intro i h0 h3
      have h3x : i < 3 := h3
      have hi : i = 0 ∨ i = 1 ∨ i = 2 := by omega
      rcases hi with rfl | rfl | rfl
      · exact ⟨[65, 66], by decide⟩
      · exact ⟨[67, 68], by decide⟩
      · exact ⟨[69, 70, 71, 72], by decide⟩)
